import Mathlib

/-!
Verification of the chunking core of `scripts/chunk_content.py`.

Modelling conventions:
* Python strings are `String` (a wrapper around `List Char`); `str.split`,
  `str.strip` and slicing are re-implemented below with Python semantics.
* The tiktoken encoder is an external collaborator; it is modelled as an
  abstract `Tokenizer` capability (an `encode`/`decode` pair over an
  arbitrary token type).  A concrete character-level instance `charTok`
  is used for concrete evaluations.
* The `while` loop of `split_text_by_tokens` does not terminate for every
  parameter choice (the start offset can fail to advance), so it is
  modelled with explicit fuel: `none` means the loop did not finish
  within the given fuel.  Its `start`/`end` variables are Python ints and
  are modelled as `Int`, with Python's negative-index slicing semantics.
-/

/-- Python's `str.strip()` whitespace test, restricted to ASCII whitespace. -/
def pyIsSpace (c : Char) : Bool :=
  c == ' ' || c == '\t' || c == '\n' || c == '\r' || c == '\x0b' || c == '\x0c'

/-- Python `str.strip()` on a character list. -/
def pyStrip (l : List Char) : List Char :=
  ((l.dropWhile pyIsSpace).reverse.dropWhile pyIsSpace).reverse

/-- Python `str.strip()`. -/
def pyStripStr (s : String) : String :=
  String.mk (pyStrip s.toList)

/-- Helper for `pySplitCore`: prepend a character onto the first fragment. -/
def consOnto (c : Char) : List (List Char) → List (List Char)
  | [] => [[c]]
  | h :: t => (c :: h) :: t

/-- Python `str.split(sep)` for a non-empty separator: split on each
non-overlapping occurrence of `sep`, scanning left to right, keeping empty
fragments.  Recursion is structural on a fuel argument so that the kernel
can evaluate it; every step consumes at least one character, so fuel equal
to the input length is sufficient and the fuel-exhausted base case is
unreachable from `pySplitStr`.  (The guard on `sep.isEmpty` only serves
totality; the script never splits on an empty separator.) -/
def pySplitCore (sep : List Char) : Nat → List Char → List (List Char)
  | 0, s => [s]
  | _ + 1, [] => [[]]
  | fuel + 1, c :: rest =>
    if sep.isPrefixOf (c :: rest) && !sep.isEmpty then
      [] :: pySplitCore sep fuel (List.drop (sep.length - 1) rest)
    else
      consOnto c (pySplitCore sep fuel rest)

/-- Python `s.split(sep)` on strings. -/
def pySplitStr (s sep : String) : List String :=
  (pySplitCore sep.toList (s.toList.length + 1) s.toList).map String.mk

/-- Python index normalisation for slices: negative indices count from the
end, then the index is clamped into `[0, len]`. -/
def pyIndexClamp (len : Nat) (i : Int) : Nat :=
  let j := if i < 0 then i + len else i
  if j < 0 then 0 else min j.toNat len

/-- Python slice `l[a:b]` with full Python semantics for out-of-range and
negative bounds. -/
def pySlice {α : Type} (l : List α) (a b : Int) : List α :=
  (l.take (pyIndexClamp l.length b)).drop (pyIndexClamp l.length a)

/-- The tokenizer capability consumed by the chunker (`ENCODING` in the
script): `encode` maps text to a token sequence, `decode` maps a token
sequence back to text.  The token type is abstract. -/
structure Tokenizer (τ : Type) where
  encode : String → List τ
  decode : List τ → String

/-- Source `count_tokens`: `len(ENCODING.encode(text))`. -/
def count_tokens {τ : Type} (tk : Tokenizer τ) (text : String) : Nat :=
  (tk.encode text).length

/-- Chunking configuration constants of the script. -/
def TARGET_CHUNK_SIZE : Nat := 750

/-- Constant `MAX_CHUNK_SIZE = 1000` tokens. -/
def MAX_CHUNK_SIZE : Nat := 1000

/-- Constant `MIN_CHUNK_SIZE = 100` tokens (advisory; unused by the algorithms). -/
def MIN_CHUNK_SIZE : Nat := 100

/-- Constant `OVERLAP_SIZE = 50` tokens. -/
def OVERLAP_SIZE : Nat := 50

/-- The `while start < len(tokens)` loop of `split_text_by_tokens`,
operating on the encoded token list and collecting the emitted token
windows.  One unit of fuel is one loop iteration; `none` means the loop
did not finish within the given fuel (the loop genuinely diverges for
`overlap ≥ max_tokens` on long enough input).  The loop body takes the
window `tokens[start:end]`, appends it, sets `start = end - overlap`, and
breaks once `end ≥ len(tokens)`. -/
def splitLoopAux {τ : Type} (tokens : List τ) (maxTokens overlap : Nat) :
    Nat → Int → Option (List (List τ))
  | 0, _ => none
  | fuel + 1, start =>
    if start < (tokens.length : Int) then
      let e : Int := start + (maxTokens : Int)
      let chunkTokens := pySlice tokens start e
      if (tokens.length : Int) ≤ e then
        some [chunkTokens]
      else
        (splitLoopAux tokens maxTokens overlap fuel (e - (overlap : Int))).map
          (chunkTokens :: ·)
    else
      some []

/-- Source `split_text_by_tokens(text, max_tokens, overlap)`: encode the whole
text once, run the window loop, decode each emitted window.  Fuel
`tokens.length + 1` is sufficient whenever `overlap < max_tokens`
(proved below); `none` models non-termination of the source loop. -/
def split_text_by_tokens {τ : Type} (tk : Tokenizer τ) (text : String)
    (max_tokens overlap : Nat) : Option (List String) :=
  let tokens := tk.encode text
  (splitLoopAux tokens max_tokens overlap (tokens.length + 1) 0).map
    (·.map tk.decode)

/-- The sentence list built for an oversized paragraph:
`[s.strip() + '.' for s in paragraph.split('.') if s.strip()]`. -/
def sentence_candidates (paragraph : String) : List String :=
  (((pySplitStr paragraph ".").map pyStripStr).filter (fun s => s ≠ "")).map
    (fun s => s ++ ".")

/-- The inner sentence-packing loop of `chunk_by_paragraphs` (state:
`temp_chunk`, `temp_tokens`), including the trailing
`if temp_chunk: chunks.append(' '.join(temp_chunk))` flush. -/
def packSentences {τ : Type} (tk : Tokenizer τ) :
    List String → List String → Nat → List String
  | [], temp_chunk, _ =>
    if temp_chunk = [] then [] else [String.intercalate " " temp_chunk]
  | sentence :: rest, temp_chunk, temp_tokens =>
    let sent_tokens := count_tokens tk sentence
    if temp_tokens + sent_tokens > MAX_CHUNK_SIZE then
      (if temp_chunk = [] then [] else [String.intercalate " " temp_chunk]) ++
        packSentences tk rest [sentence] sent_tokens
    else
      packSentences tk rest (temp_chunk ++ [sentence]) (temp_tokens + sent_tokens)

/-- The paragraph loop of `chunk_by_paragraphs` (state: `current_chunk`,
`current_tokens`), including the trailing flush.  A paragraph whose own
token count exceeds `MAX_CHUNK_SIZE` flushes the current group and is
decomposed through the sentence fallback.  (The source resets
`current_tokens` only inside the `if current_chunk:` flush; with an empty
group the running total is left as is, which the translation mirrors —
the two always change together, so the total is zero there anyway on
every path from `chunk_by_paragraphs`.) -/
def chunkParas {τ : Type} (tk : Tokenizer τ) (target_size : Nat) :
    List String → List String → Nat → List String
  | [], current_chunk, _ =>
    if current_chunk = [] then [] else [String.intercalate "\n\n" current_chunk]
  | paragraph :: rest, current_chunk, current_tokens =>
    let para_tokens := count_tokens tk paragraph
    if para_tokens > MAX_CHUNK_SIZE then
      (if current_chunk = [] then []
        else [String.intercalate "\n\n" current_chunk]) ++
        packSentences tk (sentence_candidates paragraph) [] 0 ++
        chunkParas tk target_size rest []
          (if current_chunk = [] then current_tokens else 0)
    else if current_tokens + para_tokens > target_size ∧ current_chunk ≠ [] then
      String.intercalate "\n\n" current_chunk ::
        chunkParas tk target_size rest [paragraph] para_tokens
    else
      chunkParas tk target_size rest (current_chunk ++ [paragraph])
        (current_tokens + para_tokens)

/-- The paragraph list of `chunk_by_paragraphs`:
`[p.strip() for p in text.split('\n\n') if p.strip()]`. -/
def paragraph_candidates (text : String) : List String :=
  ((pySplitStr text "\n\n").map pyStripStr).filter (fun p => p ≠ "")

/-- Source `chunk_by_paragraphs(text, target_size)`. -/
def chunk_by_paragraphs {τ : Type} (tk : Tokenizer τ) (text : String)
    (target_size : Nat) : List String :=
  chunkParas tk target_size (paragraph_candidates text) [] 0

/-- The second loop of `chunk_document`: re-measure every paragraph-level
chunk and token-window slice any chunk still above `MAX_CHUNK_SIZE`
(extending `final_chunks` with the sub-chunks), keeping the others. -/
def buildFinalChunks {τ : Type} (tk : Tokenizer τ) :
    List String → Option (List String)
  | [] => some []
  | chunk_text :: rest =>
    let token_count := count_tokens tk chunk_text
    if token_count > MAX_CHUNK_SIZE then
      match split_text_by_tokens tk chunk_text TARGET_CHUNK_SIZE OVERLAP_SIZE,
          buildFinalChunks tk rest with
      | some sub_chunks, some r => some (sub_chunks ++ r)
      | _, _ => none
    else
      (buildFinalChunks tk rest).map (chunk_text :: ·)

/-- Python `enumerate`, starting at a given index. -/
def pyEnum {α : Type} (i : Nat) : List α → List (Nat × α)
  | [] => []
  | a :: rest => (i, a) :: pyEnum (i + 1) rest

/-- The metadata dict attached to every chunk record. -/
structure ChunkMetadata where
  document_id : String
  title : String
  category : String
  source : String
  url : String
  tags : List String
  difficulty : String
  chunk_index : Nat
  total_chunks : Nat
deriving DecidableEq

/-- The `Chunk` dataclass of the script. -/
structure Chunk where
  chunk_id : String
  content : String
  token_count : Nat
  chunk_index : Nat
  metadata : ChunkMetadata
deriving DecidableEq

/-- The input document record (`doc_data`): `id`, `title`, `category`,
`tags`, `content` are mandatory keys; `source`, `url`, `difficulty` are
read with `doc_data.get(key, "")`. -/
structure Document where
  id : String
  title : String
  category : String
  tags : List String
  content : String
  source : Option String
  url : Option String
  difficulty : Option String
deriving DecidableEq

/-- Source `chunk_document(doc_data)`: paragraph chunking, re-measure and
token-window slice oversized chunks, then build the `Chunk` records with
`enumerate`.  `none` propagates non-termination of the slicer (never
reached at this call site, whose overlap 50 is below the window 750). -/
def chunk_document {τ : Type} (tk : Tokenizer τ) (doc_data : Document) :
    Option (List Chunk) :=
  let content := doc_data.content
  let doc_id := doc_data.id
  let text_chunks := chunk_by_paragraphs tk content TARGET_CHUNK_SIZE
  match buildFinalChunks tk text_chunks with
  | none => none
  | some final_chunks =>
    some ((pyEnum 0 final_chunks).map (fun it =>
      { chunk_id := doc_id ++ "_chunk_" ++ toString it.1
        content := it.2
        token_count := count_tokens tk it.2
        chunk_index := it.1
        metadata :=
          { document_id := doc_id
            title := doc_data.title
            category := doc_data.category
            source := doc_data.source.getD ""
            url := doc_data.url.getD ""
            tags := doc_data.tags
            difficulty := doc_data.difficulty.getD ""
            chunk_index := it.1
            total_chunks := final_chunks.length } }))

/-- State-passing form of `chunk_document`: the document record is the
only caller-owned object in scope, so the translation threads it
explicitly and returns it alongside the chunks.  The source reads
`doc_data` (subscripts and `.get`) and contains no assignment to it, so
the returned state is the incoming record. -/
def chunk_document_state {τ : Type} (tk : Tokenizer τ) (doc_data : Document) :
    Option (List Chunk) × Document :=
  let content := doc_data.content
  let doc_id := doc_data.id
  let text_chunks := chunk_by_paragraphs tk content TARGET_CHUNK_SIZE
  match buildFinalChunks tk text_chunks with
  | none => (none, doc_data)
  | some final_chunks =>
    (some ((pyEnum 0 final_chunks).map (fun it =>
      { chunk_id := doc_id ++ "_chunk_" ++ toString it.1
        content := it.2
        token_count := count_tokens tk it.2
        chunk_index := it.1
        metadata :=
          { document_id := doc_id
            title := doc_data.title
            category := doc_data.category
            source := doc_data.source.getD ""
            url := doc_data.url.getD ""
            tags := doc_data.tags
            difficulty := doc_data.difficulty.getD ""
            chunk_index := it.1
            total_chunks := final_chunks.length } })), doc_data)

/-- Reference packer written from the specification's words (section 4.2,
steps 4 and 5): accumulate paragraphs into a current group; if adding the
next paragraph would push the running token total above `target_size` and
the current group is non-empty, close the group and start a new one with
this paragraph; otherwise append it; flush any non-empty trailing group. -/
def specGreedyPack {τ : Type} (tk : Tokenizer τ) (target_size : Nat) :
    List String → List String → Nat → List (List String)
  | [], cur, _ => if cur = [] then [] else [cur]
  | p :: rest, cur, curTokens =>
    let pt := count_tokens tk p
    if curTokens + pt > target_size ∧ cur ≠ [] then
      cur :: specGreedyPack tk target_size rest [p] pt
    else
      specGreedyPack tk target_size rest (cur ++ [p]) (curTokens + pt)

/-- Concrete tokenizer for concrete evaluations: one token per character.
It is deterministic, decoding inverts encoding exactly, and encoding a
decoded token list gives the list back, so it satisfies the tokenizer
contract of the specification. -/
def charTok : Tokenizer Char where
  encode := fun s => s.toList
  decode := fun l => String.mk l

/-- Per-character token weight of `heavyTok`: the characters `x` and `y`
are encoded as many tokens (as a byte-level tokenizer does with rare
characters), every other character as one token. -/
def tokWeight (c : Char) : Nat :=
  if c = 'x' then 200 else if c = 'y' then 499 else 1

/-- A second concrete tokenizer: each character `c` becomes the
`tokWeight c` tokens `(c, 0), …, (c, tokWeight c - 1)`; decoding keeps
the first token of each character.  Deterministic, and decoding inverts
encoding, so it satisfies the tokenizer contract of the specification
while letting a short text carry a large token count. -/
def heavyTok : Tokenizer (Char × Nat) where
  encode := fun s =>
    s.toList.flatMap (fun c => (List.range (tokWeight c)).map (fun i => (c, i)))
  decode := fun l => String.mk ((l.filter (fun p => p.2 == 0)).map (fun p => p.1))

/-- Two clean paragraphs of 400 tokens each under `heavyTok`:
802 tokens in total. -/
def exDoc1 : Document where
  id := "doc1"
  title := "t1"
  category := "c1"
  tags := ["tag1"]
  content := "xx\n\nxx"
  source := none
  url := none
  difficulty := none

/-- A document whose content is whitespace-only. -/
def exDoc3 : Document where
  id := "doc3"
  title := "t3"
  category := "c3"
  tags := ["tag3"]
  content := "  \n\n \t "
  source := none
  url := none
  difficulty := none

/-- One paragraph of 1001 tokens under `heavyTok` (two `y`s at 499 tokens
each plus three periods); its sentence normalisation keeps only one
period, landing at 999 tokens. -/
def exDoc7 : Document where
  id := "doc7"
  title := "t7"
  category := "c7"
  tags := ["tag7"]
  content := "yy..."
  source := none
  url := none
  difficulty := none

/-- A small two-paragraph document used by witnesses. -/
def exDocW : Document where
  id := "docw"
  title := "tw"
  category := "cw"
  tags := ["tagw"]
  content := "hello\n\nworld"
  source := some "sw"
  url := none
  difficulty := none

/-- The single chunk record that chunking `exDocW` with `charTok`
produces. -/
def exChunkW : Chunk where
  chunk_id := "docw_chunk_0"
  content := "hello\n\nworld"
  token_count := 12
  chunk_index := 0
  metadata :=
    { document_id := "docw"
      title := "tw"
      category := "cw"
      source := "sw"
      url := ""
      tags := ["tagw"]
      difficulty := ""
      chunk_index := 0
      total_chunks := 1 }

/-! ## Lemmas about Python slicing and the token-window loop -/

theorem pyIndexClamp_natCast (len n : Nat) : pyIndexClamp len (n : Int) = min n len := by
  simp only [pyIndexClamp]
  rw [if_neg (by omega : ¬ ((n : Int) < 0)), if_neg (by omega : ¬ ((n : Int) < 0)),
    Int.toNat_natCast]

theorem pySlice_natCast {α : Type} (l : List α) (s m : Nat) :
    pySlice l (s : Int) ((s : Int) + (m : Int)) = (l.drop s).take m := by
  have h3 : ((s : Int) + (m : Int)) = ((s + m : Nat) : Int) := by omega
  simp only [pySlice, h3, pyIndexClamp_natCast]
  by_cases hs : s ≤ l.length
  · rw [min_eq_left hs, List.drop_take]
    apply List.take_eq_take.mpr
    simp only [List.length_drop]
    omega
  · rw [min_eq_right (by omega : l.length ≤ s)]
    rw [List.drop_eq_nil_of_le (by simp [List.length_take])]
    rw [List.drop_eq_nil_of_le (by omega : l.length ≤ s), List.take_nil]

/-- One unfolding of the window loop. -/
theorem splitLoopAux_succ {τ : Type} (tokens : List τ) (maxTokens overlap : Nat)
    (fuel : Nat) (start : Int) :
    splitLoopAux tokens maxTokens overlap (fuel + 1) start =
      if start < (tokens.length : Int) then
        if (tokens.length : Int) ≤ start + (maxTokens : Int) then
          some [pySlice tokens start (start + (maxTokens : Int))]
        else
          (splitLoopAux tokens maxTokens overlap fuel
              (start + (maxTokens : Int) - (overlap : Int))).map
            (pySlice tokens start (start + (maxTokens : Int)) :: ·)
      else some [] := rfl

/-- The window loop at a non-negative start offset, with the Python slice
resolved into `drop`/`take` and the offsets kept in `Nat`. -/
theorem splitLoopAux_nat_succ {τ : Type} (tokens : List τ)
    (maxTokens overlap fuel s : Nat) (ho : overlap ≤ maxTokens) :
    splitLoopAux tokens maxTokens overlap (fuel + 1) (s : Int) =
      if s < tokens.length then
        if tokens.length ≤ s + maxTokens then
          some [(tokens.drop s).take maxTokens]
        else
          (splitLoopAux tokens maxTokens overlap fuel
              ((s + (maxTokens - overlap) : Nat) : Int)).map
            ((tokens.drop s).take maxTokens :: ·)
      else some [] := by
  rw [splitLoopAux_succ]
  have hc : ((s : Int) + (maxTokens : Int) - (overlap : Int)) =
      ((s + (maxTokens - overlap) : Nat) : Int) := by omega
  rw [pySlice_natCast, hc]
  by_cases h1 : s < tokens.length
  · rw [if_pos (by exact_mod_cast h1), if_pos h1]
    by_cases h2 : tokens.length ≤ s + maxTokens
    · rw [if_pos (by exact_mod_cast h2), if_pos h2]
    · rw [if_neg (by exact_mod_cast h2), if_neg h2]
  · rw [if_neg (by exact_mod_cast h1), if_neg h1]

/-- With `overlap < maxTokens`, fuel beyond the token count makes the loop
finish: the source loop terminates for every valid configuration. -/
theorem splitLoop_total {τ : Type} (tokens : List τ) (maxTokens overlap : Nat)
    (ho : overlap < maxTokens) :
    ∀ fuel s, tokens.length ≤ s + fuel →
      ∃ ws, splitLoopAux tokens maxTokens overlap (fuel + 1) (s : Int) = some ws := by
  intro fuel
  induction fuel with
  | zero =>
    intro s hs
    rw [splitLoopAux_nat_succ _ _ _ _ _ ho.le, if_neg (by omega)]
    exact ⟨[], rfl⟩
  | succ f ih =>
    intro s hs
    rw [splitLoopAux_nat_succ _ _ _ _ _ ho.le]
    by_cases h1 : s < tokens.length
    · rw [if_pos h1]
      by_cases h2 : tokens.length ≤ s + maxTokens
      · rw [if_pos h2]
        exact ⟨_, rfl⟩
      · rw [if_neg h2]
        obtain ⟨ws, hws⟩ := ih (s + (maxTokens - overlap)) (by omega)
        exact ⟨_, by rw [hws]; rfl⟩
    · rw [if_neg h1]
      exact ⟨[], rfl⟩

/-- Every window emitted from start offset `s` is the `maxTokens`-token
slice beginning at `s + i * (maxTokens - overlap)`. -/
theorem splitLoop_get? {τ : Type} (tokens : List τ) (maxTokens overlap : Nat)
    (ho : overlap ≤ maxTokens) :
    ∀ fuel (s : Nat) ws,
      splitLoopAux tokens maxTokens overlap fuel (s : Int) = some ws →
      ∀ i w, ws.get? i = some w →
        w = (tokens.drop (s + i * (maxTokens - overlap))).take maxTokens := by
  intro fuel
  induction fuel with
  | zero =>
    intro s ws h
    simp [splitLoopAux] at h
  | succ f ih =>
    intro s ws h i w hw
    rw [splitLoopAux_nat_succ _ _ _ _ _ ho] at h
    by_cases h1 : s < tokens.length
    · rw [if_pos h1] at h
      by_cases h2 : tokens.length ≤ s + maxTokens
      · rw [if_pos h2] at h
        injection h with h
        subst h
        match i, hw with
        | 0, hw =>
          injection hw with hw
          subst hw
          simp
        | i + 1, hw => simp at hw
      · rw [if_neg h2] at h
        rw [Option.map_eq_some'] at h
        obtain ⟨rest, hrest, hws⟩ := h
        subst hws
        match i, hw with
        | 0, hw =>
          injection hw with hw
          subst hw
          simp
        | i + 1, hw =>
          have := ih (s + (maxTokens - overlap)) rest hrest i w hw
          rw [this]
          have harith : s + (maxTokens - overlap) + i * (maxTokens - overlap) =
              s + (i + 1) * (maxTokens - overlap) := by
            rw [Nat.succ_mul]
            ring
          rw [harith]
    · rw [if_neg h1] at h
      injection h with h
      subst h
      simp at hw

/-- Every window except the last is emitted from an offset whose window
end is strictly inside the token list (the loop continued past it). -/
theorem splitLoop_continue {τ : Type} (tokens : List τ) (maxTokens overlap : Nat)
    (ho : overlap ≤ maxTokens) :
    ∀ fuel (s : Nat) ws,
      splitLoopAux tokens maxTokens overlap fuel (s : Int) = some ws →
      ∀ i, i + 1 < ws.length →
        s + i * (maxTokens - overlap) + maxTokens < tokens.length := by
  intro fuel
  induction fuel with
  | zero =>
    intro s ws h
    simp [splitLoopAux] at h
  | succ f ih =>
    intro s ws h i hi
    rw [splitLoopAux_nat_succ _ _ _ _ _ ho] at h
    by_cases h1 : s < tokens.length
    · rw [if_pos h1] at h
      by_cases h2 : tokens.length ≤ s + maxTokens
      · rw [if_pos h2] at h
        injection h with h
        subst h
        simp at hi
      · rw [if_neg h2] at h
        rw [Option.map_eq_some'] at h
        obtain ⟨rest, hrest, hws⟩ := h
        subst hws
        match i, hi with
        | 0, _ => omega
        | i + 1, hi =>
          have := ih (s + (maxTokens - overlap)) rest hrest i
            (by simpa using Nat.lt_of_succ_lt_succ hi)
          have harith : s + (maxTokens - overlap) + i * (maxTokens - overlap) =
              s + (i + 1) * (maxTokens - overlap) := by
            rw [Nat.succ_mul]
            ring
          omega
    · rw [if_neg h1] at h
      injection h with h
      subst h
      simp at hi

/-- Every window is emitted from an offset strictly inside the token
list. -/
theorem splitLoop_start_lt {τ : Type} (tokens : List τ) (maxTokens overlap : Nat)
    (ho : overlap ≤ maxTokens) :
    ∀ fuel (s : Nat) ws,
      splitLoopAux tokens maxTokens overlap fuel (s : Int) = some ws →
      ∀ i, i < ws.length → s + i * (maxTokens - overlap) < tokens.length := by
  intro fuel
  induction fuel with
  | zero =>
    intro s ws h
    simp [splitLoopAux] at h
  | succ f ih =>
    intro s ws h i hi
    rw [splitLoopAux_nat_succ _ _ _ _ _ ho] at h
    by_cases h1 : s < tokens.length
    · rw [if_pos h1] at h
      by_cases h2 : tokens.length ≤ s + maxTokens
      · rw [if_pos h2] at h
        injection h with h
        subst h
        simp at hi
        subst hi
        simpa using h1
      · rw [if_neg h2] at h
        rw [Option.map_eq_some'] at h
        obtain ⟨rest, hrest, hws⟩ := h
        subst hws
        match i, hi with
        | 0, _ => simpa using h1
        | i + 1, hi =>
          have := ih (s + (maxTokens - overlap)) rest hrest i
            (by simpa using Nat.lt_of_succ_lt_succ hi)
          have harith : s + (maxTokens - overlap) + i * (maxTokens - overlap) =
              s + (i + 1) * (maxTokens - overlap) := by
            rw [Nat.succ_mul]
            ring
          omega
    · rw [if_neg h1] at h
      injection h with h
      subst h
      simp at hi

/-- When the loop starts inside the token list it emits at least one
window, and the last window's end reaches the end of the token list. -/
theorem splitLoop_last {τ : Type} (tokens : List τ) (maxTokens overlap : Nat)
    (ho : overlap ≤ maxTokens) :
    ∀ fuel (s : Nat) ws,
      splitLoopAux tokens maxTokens overlap fuel (s : Int) = some ws →
      s < tokens.length →
      ws ≠ [] ∧
        tokens.length ≤ s + (ws.length - 1) * (maxTokens - overlap) + maxTokens := by
  intro fuel
  induction fuel with
  | zero =>
    intro s ws h
    simp [splitLoopAux] at h
  | succ f ih =>
    intro s ws h hs
    rw [splitLoopAux_nat_succ _ _ _ _ _ ho, if_pos hs] at h
    by_cases h2 : tokens.length ≤ s + maxTokens
    · rw [if_pos h2] at h
      injection h with h
      subst h
      exact ⟨by simp, by simpa using h2⟩
    · rw [if_neg h2] at h
      rw [Option.map_eq_some'] at h
      obtain ⟨rest, hrest, hws⟩ := h
      subst hws
      have hs' : s + (maxTokens - overlap) < tokens.length := by omega
      obtain ⟨hne, hlen⟩ := ih (s + (maxTokens - overlap)) rest hrest hs'
      refine ⟨by simp, ?_⟩
      obtain ⟨r, rs, hr⟩ : ∃ r rs, rest = r :: rs := by
        cases rest with
        | nil => exact absurd rfl hne
        | cons r rs => exact ⟨r, rs, rfl⟩
      subst hr
      simp only [List.length_cons, Nat.add_sub_cancel] at hlen ⊢
      have harith : s + (maxTokens - overlap) + rs.length * (maxTokens - overlap) =
          s + (rs.length + 1) * (maxTokens - overlap) := by
        rw [Nat.succ_mul]
        ring
      omega

/-- A window with a successor window has exactly `maxTokens` tokens. -/
theorem splitLoop_full_window {τ : Type} (tokens : List τ)
    (maxTokens overlap : Nat) (ho : overlap ≤ maxTokens) (fuel : Nat)
    (ws : List (List τ))
    (h : splitLoopAux tokens maxTokens overlap fuel ((0 : Nat) : Int) = some ws)
    (i : Nat) (w : List τ) (hw : ws.get? i = some w) (hi : i + 1 < ws.length) :
    w.length = maxTokens := by
  have hwin := splitLoop_get? tokens maxTokens overlap ho fuel 0 ws h i w hw
  have hcont := splitLoop_continue tokens maxTokens overlap ho fuel 0 ws h i hi
  subst hwin
  simp only [List.length_take, List.length_drop]
  omega

/-- Arithmetic cover: with a positive step at most the window size and the
last window reaching past `len`, every position below `len` lies inside
some window. -/
theorem cover_arith (step maxTokens len n : Nat) (hn : 1 ≤ n) (hs : 0 < step)
    (hsm : step ≤ maxTokens) (hlast : len ≤ (n - 1) * step + maxTokens) :
    ∀ j, j < len → ∃ i, i < n ∧ i * step ≤ j ∧ j < i * step + maxTokens := by
  intro j hj
  by_cases hc : n - 1 ≤ j / step
  · refine ⟨n - 1, by omega, ?_, by omega⟩
    calc (n - 1) * step ≤ (j / step) * step := Nat.mul_le_mul_right _ hc
    _ ≤ j := Nat.div_mul_le_self j step
  · refine ⟨j / step, by omega, Nat.div_mul_le_self j step, ?_⟩
    have hmod := Nat.div_add_mod j step
    have hlt : j % step < step := Nat.mod_lt _ hs
    have : j < j / step * step + step := by
      have hcomm : j / step * step = step * (j / step) := Nat.mul_comm _ _
      omega
    omega

/-! ## Claim theorems about the token-window slicer -/

/-- C2: the claim asserts that `overlap_size ≥ target_chunk_size` raises a
ConfigurationError before any document is processed and that the slicer
loop is explicitly guarded against a non-advancing offset.  The code has
no such guard and no ConfigurationError: whenever `overlap ≥ max_tokens`
and the text extends past the first window, the loop's offset never
advances far enough and the loop runs forever — no amount of fuel makes
`splitLoopAux` finish. -/
theorem c2_slicer_diverges_without_guard {τ : Type} (tokens : List τ)
    (maxTokens overlap : Nat) (hov : maxTokens ≤ overlap) :
    ∀ fuel (start : Int), start + (maxTokens : Int) < (tokens.length : Int) →
      splitLoopAux tokens maxTokens overlap fuel start = none := by
  intro fuel
  induction fuel with
  | zero =>
    intro start hs
    rfl
  | succ f ih =>
    intro start hs
    rw [splitLoopAux_succ, if_pos (by omega), if_neg (by omega),
      ih (start + (maxTokens : Int) - (overlap : Int)) (by omega)]
    rfl

/-- C2 witness: with window 1 and overlap 1 on two tokens the loop never
finishes. -/
theorem c2_slicer_diverges_witness :
    splitLoopAux ([10, 20] : List Nat) 1 1 5 0 = none :=
  c2_slicer_diverges_without_guard [10, 20] 1 1 (by decide) 5 0 (by decide)

/-- C6: for `0 ≤ overlap < maxTokens`, any two consecutive windows emitted
by the token-window slicer agree on their shared part: the last `overlap`
tokens of window `i` are exactly the first `overlap` tokens of window
`i+1` (as token sequences). -/
theorem c6_consecutive_windows_overlap {τ : Type} (tokens : List τ)
    (maxTokens overlap fuel : Nat) (ws : List (List τ)) (ho : overlap < maxTokens)
    (h : splitLoopAux tokens maxTokens overlap fuel 0 = some ws) :
    ∀ i w w', ws.get? i = some w → ws.get? (i + 1) = some w' →
      w.drop (w.length - overlap) = w'.take overlap := by
  intro i w w' hw hw'
  have h0 : splitLoopAux tokens maxTokens overlap fuel ((0 : Nat) : Int) = some ws := h
  have hi1 : i + 1 < ws.length := by
    rcases List.get?_eq_some.mp hw' with ⟨hlt, _⟩
    exact hlt
  have hwlen := splitLoop_full_window tokens maxTokens overlap ho.le fuel ws h0 i w hw hi1
  have hwin := splitLoop_get? tokens maxTokens overlap ho.le fuel 0 ws h0 i w hw
  have hwin' := splitLoop_get? tokens maxTokens overlap ho.le fuel 0 ws h0 (i + 1) w' hw'
  have hcont := splitLoop_continue tokens maxTokens overlap ho.le fuel 0 ws h0 i hi1
  rw [hwlen, hwin, hwin']
  rw [List.drop_take]
  have e1 : maxTokens - (maxTokens - overlap) = overlap := by omega
  have e2 : (tokens.drop (0 + i * (maxTokens - overlap))).drop (maxTokens - overlap) =
      tokens.drop (0 + (i + 1) * (maxTokens - overlap)) := by
    rw [List.drop_drop]
    have harith : 0 + i * (maxTokens - overlap) + (maxTokens - overlap) =
        0 + (i + 1) * (maxTokens - overlap) := by
      rw [Nat.succ_mul]
      ring
    rw [harith]
  rw [e1, e2, List.take_take, min_eq_left ho.le]

/-- C6 witness: slicing five tokens with window 3 and overlap 1 emits
windows `[0,1,2]` and `[2,3,4]`, which share the token `2`. -/
theorem c6_consecutive_windows_overlap_witness :
    ([0, 1, 2] : List Nat).drop (([0, 1, 2] : List Nat).length - 1) =
      ([2, 3, 4] : List Nat).take 1 :=
  c6_consecutive_windows_overlap ([0, 1, 2, 3, 4] : List Nat) 3 1 6
    [[0, 1, 2], [2, 3, 4]] (by decide) (by decide) 0 [0, 1, 2] [2, 3, 4]
    (by decide) (by decide)

/-- C10: for `max_tokens > 0` and `0 ≤ overlap < max_tokens` the slicer
terminates (fuel one past the token count suffices), the final emitted
window ends exactly at the end of the token sequence (the final partial
window is emitted even when short), and every token position of the text
is covered by at least one window. -/
theorem c10_slicer_terminates_and_covers {τ : Type} (tk : Tokenizer τ)
    (text : String) (max_tokens overlap : Nat) (hm : 0 < max_tokens)
    (ho : overlap < max_tokens) :
    ∃ ws,
      splitLoopAux (tk.encode text) max_tokens overlap
        ((tk.encode text).length + 1) 0 = some ws ∧
      split_text_by_tokens tk text max_tokens overlap = some (ws.map tk.decode) ∧
      (tk.encode text = [] → ws = []) ∧
      (tk.encode text ≠ [] → ∃ s, s < (tk.encode text).length ∧
        ws.getLast? = some ((tk.encode text).drop s)) ∧
      (∀ j, j < (tk.encode text).length →
        ∃ i w k, ws.get? i = some w ∧ w.get? k = (tk.encode text).get? j) := by
  obtain ⟨ws, hws⟩ := splitLoop_total (tk.encode text) max_tokens overlap ho
    (tk.encode text).length 0 (by omega)
  have hws0 : splitLoopAux (tk.encode text) max_tokens overlap
      ((tk.encode text).length + 1) 0 = some ws := hws
  refine ⟨ws, hws0, ?_, ?_, ?_, ?_⟩
  · simp only [split_text_by_tokens, hws0, Option.map_some']
  · intro hnil
    rw [splitLoopAux_nat_succ _ _ _ _ _ ho.le, if_neg (by simp [hnil])] at hws
    injection hws with hws
    exact hws.symm
  · intro hnn
    have hlen0 : 0 < (tk.encode text).length := List.length_pos.mpr hnn
    obtain ⟨hne, hlast⟩ := splitLoop_last (tk.encode text) max_tokens overlap
      ho.le _ 0 ws hws hlen0
    have hn1 : ws.length - 1 < ws.length := by
      cases ws with
      | nil => exact absurd rfl hne
      | cons a l => simp
    have hstart := splitLoop_start_lt (tk.encode text) max_tokens overlap
      ho.le _ 0 ws hws (ws.length - 1) hn1
    refine ⟨0 + (ws.length - 1) * (max_tokens - overlap), hstart, ?_⟩
    rw [List.getLast?_eq_get?, List.get?_eq_get hn1]
    have hwin := splitLoop_get? (tk.encode text) max_tokens overlap ho.le _ 0 ws
      hws (ws.length - 1) (ws.get ⟨ws.length - 1, hn1⟩)
      (List.get?_eq_get hn1)
    rw [hwin, List.take_of_length_le]
    simp only [List.length_drop]
    omega
  · intro j hj
    have hlen0 : 0 < (tk.encode text).length := by omega
    have hnn : tk.encode text ≠ [] := by
      intro hnil
      rw [hnil] at hlen0
      simp at hlen0
    obtain ⟨hne, hlast⟩ := splitLoop_last (tk.encode text) max_tokens overlap
      ho.le _ 0 ws hws hlen0
    have hn1 : 1 ≤ ws.length := by
      cases ws with
      | nil => exact absurd rfl hne
      | cons a l => simp
    obtain ⟨i, hin, hile, hilt⟩ := cover_arith (max_tokens - overlap) max_tokens
      (tk.encode text).length ws.length hn1 (by omega) (by omega) (by omega) j hj
    have hiw : ws.get? i = some (ws.get ⟨i, hin⟩) := List.get?_eq_get hin
    have hwin := splitLoop_get? (tk.encode text) max_tokens overlap ho.le _ 0 ws
      hws i (ws.get ⟨i, hin⟩) hiw
    refine ⟨i, ws.get ⟨i, hin⟩, j - i * (max_tokens - overlap), hiw, ?_⟩
    rw [hwin, List.get?_take (by omega), List.get?_drop]
    have : 0 + i * (max_tokens - overlap) + (j - i * (max_tokens - overlap)) = j := by
      omega
    rw [this]

/-- C10 witness: slicing the five characters of a concrete text with
window 2 and overlap 1 terminates, ends at the end of the token sequence,
and covers every token position. -/
theorem c10_slicer_terminates_and_covers_witness :
    ∃ ws,
      splitLoopAux (charTok.encode "hello") 2 1
        ((charTok.encode "hello").length + 1) 0 = some ws ∧
      split_text_by_tokens charTok "hello" 2 1 = some (ws.map charTok.decode) ∧
      (charTok.encode "hello" = [] → ws = []) ∧
      (charTok.encode "hello" ≠ [] → ∃ s, s < (charTok.encode "hello").length ∧
        ws.getLast? = some ((charTok.encode "hello").drop s)) ∧
      (∀ j, j < (charTok.encode "hello").length →
        ∃ i w k, ws.get? i = some w ∧ w.get? k = (charTok.encode "hello").get? j) :=
  c10_slicer_terminates_and_covers charTok "hello" 2 1 (by decide) (by decide)

/-! ## Lemmas about enumeration and the record builder -/

theorem pyEnum_length {α : Type} : ∀ (l : List α) (n : Nat),
    (pyEnum n l).length = l.length := by
  intro l
  induction l with
  | nil => intro n; rfl
  | cons a rest ih =>
    intro n
    simp [pyEnum, ih]

theorem pyEnum_get? {α : Type} : ∀ (l : List α) (n i : Nat),
    (pyEnum n l).get? i = (l.get? i).map (fun a => (n + i, a)) := by
  intro l
  induction l with
  | nil => intro n i; cases i <;> rfl
  | cons a rest ih =>
    intro n i
    cases i with
    | zero => rfl
    | succ i =>
      have hL : pyEnum n (a :: rest) = (n, a) :: pyEnum (n + 1) rest := rfl
      rw [hL, List.get?_cons_succ, List.get?_cons_succ, ih (n + 1) i]
      cases hr : rest.get? i with
      | none => rfl
      | some b =>
        simp only [Option.map_some', Option.some.injEq, Prod.mk.injEq,
          eq_self_iff_true, and_true]
        omega

theorem pyEnum_mem {α : Type} : ∀ (l : List α) (n : Nat) (p : Nat × α),
    p ∈ pyEnum n l → p.2 ∈ l := by
  intro l
  induction l with
  | nil => intro n p h; simp [pyEnum] at h
  | cons a rest ih =>
    intro n p h
    simp only [pyEnum, List.mem_cons] at h
    rcases h with h | h
    · subst h; simp
    · exact List.mem_cons_of_mem _ (ih (n + 1) p h)

theorem chunk_document_eq_none {τ : Type} (tk : Tokenizer τ) (doc : Document)
    (hb : buildFinalChunks tk
      (chunk_by_paragraphs tk doc.content TARGET_CHUNK_SIZE) = none) :
    chunk_document tk doc = none := by
  simp only [chunk_document, hb]

theorem chunk_document_eq_some {τ : Type} (tk : Tokenizer τ) (doc : Document)
    (F : List String)
    (hb : buildFinalChunks tk
      (chunk_by_paragraphs tk doc.content TARGET_CHUNK_SIZE) = some F) :
    chunk_document tk doc = some ((pyEnum 0 F).map (fun it =>
      { chunk_id := doc.id ++ "_chunk_" ++ toString it.1
        content := it.2
        token_count := count_tokens tk it.2
        chunk_index := it.1
        metadata :=
          { document_id := doc.id
            title := doc.title
            category := doc.category
            source := doc.source.getD ""
            url := doc.url.getD ""
            tags := doc.tags
            difficulty := doc.difficulty.getD ""
            chunk_index := it.1
            total_chunks := F.length } })) := by
  simp only [chunk_document, hb]

/-- C4: every emitted chunk list is indexed `0 .. N-1` in order with no
gaps: the chunk at position `i` has `chunk_index = i` (also inside its
metadata), `metadata.total_chunks` equal to the number of chunks, and
`chunk_id` equal to the document id followed by `_chunk_` and the index. -/
theorem c4_chunk_indexing {τ : Type} (tk : Tokenizer τ) (doc : Document)
    (cs : List Chunk) (h : chunk_document tk doc = some cs) :
    ∀ i c, cs.get? i = some c →
      c.chunk_index = i ∧ c.metadata.chunk_index = i ∧
      c.metadata.total_chunks = cs.length ∧
      c.chunk_id = doc.id ++ "_chunk_" ++ toString i := by
  intro i c hc
  cases hb : buildFinalChunks tk (chunk_by_paragraphs tk doc.content TARGET_CHUNK_SIZE) with
  | none =>
    rw [chunk_document_eq_none tk doc hb] at h
    exact absurd h (by simp)
  | some F =>
    rw [chunk_document_eq_some tk doc F hb] at h
    injection h with h
    subst h
    rw [List.get?_map, pyEnum_get? F 0 i] at hc
    cases hF : F.get? i with
    | none => rw [hF] at hc; simp at hc
    | some t =>
      rw [hF] at hc
      simp only [Option.map_some'] at hc
      injection hc with hc
      subst hc
      refine ⟨by simp, by simp, by simp [List.length_map, pyEnum_length], by simp⟩

/-- C4 witness: the single chunk of the witness document has index 0,
total 1 and id `docw_chunk_0`. -/
theorem c4_chunk_indexing_witness :
    exChunkW.chunk_index = 0 ∧ exChunkW.metadata.chunk_index = 0 ∧
    exChunkW.metadata.total_chunks = [exChunkW].length ∧
    exChunkW.chunk_id = exDocW.id ++ "_chunk_" ++ toString 0 :=
  c4_chunk_indexing charTok exDocW [exChunkW] (by decide) 0 exChunkW (by decide)

/-- C5: every emitted chunk's `token_count` is the tokenizer's count of
that chunk's own content, recomputed at record-build time. -/
theorem c5_token_count_recomputed {τ : Type} (tk : Tokenizer τ) (doc : Document)
    (cs : List Chunk) (h : chunk_document tk doc = some cs) :
    ∀ c ∈ cs, c.token_count = count_tokens tk c.content := by
  intro c hc
  cases hb : buildFinalChunks tk (chunk_by_paragraphs tk doc.content TARGET_CHUNK_SIZE) with
  | none =>
    rw [chunk_document_eq_none tk doc hb] at h
    exact absurd h (by simp)
  | some F =>
    rw [chunk_document_eq_some tk doc F hb] at h
    injection h with h
    subst h
    obtain ⟨it, _, rfl⟩ := List.mem_map.mp hc
    rfl

/-- C5 witness: the witness chunk's stored count is the recomputed count
of its content. -/
theorem c5_token_count_recomputed_witness :
    exChunkW.token_count = count_tokens charTok exChunkW.content :=
  c5_token_count_recomputed charTok exDocW [exChunkW] (by decide) exChunkW (by decide)

/-- C9: chunking never mutates the input document record: in the
state-passing embedding every field of the returned document state equals
the corresponding input field, and the chunk output agrees with
`chunk_document`. -/
theorem c9_document_not_mutated {τ : Type} (tk : Tokenizer τ) (doc : Document) :
    (chunk_document_state tk doc).2.id = doc.id ∧
    (chunk_document_state tk doc).2.title = doc.title ∧
    (chunk_document_state tk doc).2.category = doc.category ∧
    (chunk_document_state tk doc).2.tags = doc.tags ∧
    (chunk_document_state tk doc).2.content = doc.content ∧
    (chunk_document_state tk doc).2.source = doc.source ∧
    (chunk_document_state tk doc).2.url = doc.url ∧
    (chunk_document_state tk doc).2.difficulty = doc.difficulty ∧
    (chunk_document_state tk doc).1 = chunk_document tk doc := by
  have h2 : (chunk_document_state tk doc).2 = doc := by
    cases hb : buildFinalChunks tk (chunk_by_paragraphs tk doc.content TARGET_CHUNK_SIZE) with
    | none => simp only [chunk_document_state, hb]
    | some F => simp only [chunk_document_state, hb]
  have h1 : (chunk_document_state tk doc).1 = chunk_document tk doc := by
    cases hb : buildFinalChunks tk (chunk_by_paragraphs tk doc.content TARGET_CHUNK_SIZE) with
    | none => simp only [chunk_document_state, chunk_document, hb]
    | some F => simp only [chunk_document_state, chunk_document, hb]
  rw [h2]
  exact ⟨rfl, rfl, rfl, rfl, rfl, rfl, rfl, rfl, h1⟩

/-- C9 witness: the state returned for the witness document is the
witness document itself, field by field. -/
theorem c9_document_not_mutated_witness :
    (chunk_document_state charTok exDocW).2.id = exDocW.id ∧
    (chunk_document_state charTok exDocW).2.title = exDocW.title ∧
    (chunk_document_state charTok exDocW).2.category = exDocW.category ∧
    (chunk_document_state charTok exDocW).2.tags = exDocW.tags ∧
    (chunk_document_state charTok exDocW).2.content = exDocW.content ∧
    (chunk_document_state charTok exDocW).2.source = exDocW.source ∧
    (chunk_document_state charTok exDocW).2.url = exDocW.url ∧
    (chunk_document_state charTok exDocW).2.difficulty = exDocW.difficulty ∧
    (chunk_document_state charTok exDocW).1 = chunk_document charTok exDocW :=
  c9_document_not_mutated charTok exDocW

/-! ## Lemmas about the paragraph and sentence packers -/

theorem chunkParas_nil {τ : Type} (tk : Tokenizer τ) (target : Nat)
    (cur : List String) (ct : Nat) :
    chunkParas tk target [] cur ct =
      if cur = [] then [] else [String.intercalate "\n\n" cur] := rfl

theorem chunkParas_cons {τ : Type} (tk : Tokenizer τ) (target : Nat) (p : String)
    (rest cur : List String) (ct : Nat) :
    chunkParas tk target (p :: rest) cur ct =
      if count_tokens tk p > MAX_CHUNK_SIZE then
        (if cur = [] then [] else [String.intercalate "\n\n" cur]) ++
          packSentences tk (sentence_candidates p) [] 0 ++
          chunkParas tk target rest [] (if cur = [] then ct else 0)
      else if ct + count_tokens tk p > target ∧ cur ≠ [] then
        String.intercalate "\n\n" cur ::
          chunkParas tk target rest [p] (count_tokens tk p)
      else
        chunkParas tk target rest (cur ++ [p]) (ct + count_tokens tk p) := rfl

theorem packSentences_nil {τ : Type} (tk : Tokenizer τ)
    (temp : List String) (tt : Nat) :
    packSentences tk [] temp tt =
      if temp = [] then [] else [String.intercalate " " temp] := rfl

theorem packSentences_cons {τ : Type} (tk : Tokenizer τ) (sentence : String)
    (rest temp : List String) (tt : Nat) :
    packSentences tk (sentence :: rest) temp tt =
      if tt + count_tokens tk sentence > MAX_CHUNK_SIZE then
        (if temp = [] then [] else [String.intercalate " " temp]) ++
          packSentences tk rest [sentence] (count_tokens tk sentence)
      else
        packSentences tk rest (temp ++ [sentence])
          (tt + count_tokens tk sentence) := rfl

theorem specGreedyPack_nil {τ : Type} (tk : Tokenizer τ) (target : Nat)
    (cur : List String) (ct : Nat) :
    specGreedyPack tk target [] cur ct = if cur = [] then [] else [cur] := rfl

theorem specGreedyPack_cons {τ : Type} (tk : Tokenizer τ) (target : Nat)
    (p : String) (rest cur : List String) (ct : Nat) :
    specGreedyPack tk target (p :: rest) cur ct =
      if ct + count_tokens tk p > target ∧ cur ≠ [] then
        cur :: specGreedyPack tk target rest [p] (count_tokens tk p)
      else
        specGreedyPack tk target rest (cur ++ [p]) (ct + count_tokens tk p) := rfl

theorem buildFinalChunks_nil {τ : Type} (tk : Tokenizer τ) :
    buildFinalChunks tk [] = some [] := rfl

theorem buildFinalChunks_cons {τ : Type} (tk : Tokenizer τ) (t : String)
    (rest : List String) :
    buildFinalChunks tk (t :: rest) =
      if count_tokens tk t > MAX_CHUNK_SIZE then
        match split_text_by_tokens tk t TARGET_CHUNK_SIZE OVERLAP_SIZE,
            buildFinalChunks tk rest with
        | some sub_chunks, some r => some (sub_chunks ++ r)
        | _, _ => none
      else
        (buildFinalChunks tk rest).map (t :: ·) := rfl

/-- When every paragraph fits under `MAX_CHUNK_SIZE`, the paragraph loop
is exactly the specification's greedy packer followed by joining each
group with the paragraph separator. -/
theorem chunkParas_eq_specGreedy {τ : Type} (tk : Tokenizer τ) (target : Nat) :
    ∀ (ps cur : List String) (ct : Nat),
      (∀ p ∈ ps, count_tokens tk p ≤ MAX_CHUNK_SIZE) →
      chunkParas tk target ps cur ct =
        (specGreedyPack tk target ps cur ct).map (String.intercalate "\n\n") := by
  intro ps
  induction ps with
  | nil =>
    intro cur ct _
    rw [chunkParas_nil, specGreedyPack_nil]
    by_cases hc : cur = []
    · rw [if_pos hc, if_pos hc]
      rfl
    · rw [if_neg hc, if_neg hc]
      rfl
  | cons p rest ih =>
    intro cur ct hmax
    have hp : ¬ (count_tokens tk p > MAX_CHUNK_SIZE) := by
      have := hmax p (by simp)
      omega
    have hrest : ∀ q ∈ rest, count_tokens tk q ≤ MAX_CHUNK_SIZE :=
      fun q hq => hmax q (by simp [hq])
    rw [chunkParas_cons, specGreedyPack_cons, if_neg hp]
    by_cases hcond : ct + count_tokens tk p > target ∧ cur ≠ []
    · rw [if_pos hcond, if_pos hcond, ih _ _ hrest]
      rfl
    · rw [if_neg hcond, if_neg hcond, ih _ _ hrest]

/-- The groups built by the specification's greedy packer flatten back to
the input paragraphs in document order. -/
theorem specGreedyPack_flatten {τ : Type} (tk : Tokenizer τ) (target : Nat) :
    ∀ (ps cur : List String) (ct : Nat),
      (specGreedyPack tk target ps cur ct).flatten = cur ++ ps := by
  intro ps
  induction ps with
  | nil =>
    intro cur ct
    rw [specGreedyPack_nil]
    by_cases hc : cur = []
    · rw [if_pos hc, hc]
      rfl
    · rw [if_neg hc]
      simp
  | cons p rest ih =>
    intro cur ct
    rw [specGreedyPack_cons]
    by_cases hcond : ct + count_tokens tk p > target ∧ cur ≠ []
    · rw [if_pos hcond, List.flatten_cons, ih]
      rfl
    · rw [if_neg hcond, ih]
      simp

/-- C8: for paragraphs that all fit under `max_size`, the paragraph packer
follows exactly the specification's greedy rule — close the current group
only when adding the next paragraph would push the running total above
`target_size` and the group is non-empty, flush the trailing group — and
the groups preserve document order of the paragraphs. -/
theorem c8_packer_is_greedy {τ : Type} (tk : Tokenizer τ) (target_size : Nat)
    (ps : List String)
    (hmax : ∀ p ∈ ps, count_tokens tk p ≤ MAX_CHUNK_SIZE) :
    chunkParas tk target_size ps [] 0 =
      (specGreedyPack tk target_size ps [] 0).map (String.intercalate "\n\n") ∧
    (specGreedyPack tk target_size ps [] 0).flatten = ps :=
  ⟨chunkParas_eq_specGreedy tk target_size ps [] 0 hmax,
    specGreedyPack_flatten tk target_size ps [] 0⟩

/-- C8 witness: a concrete two-paragraph run of the packer agrees with the
greedy reference packer and preserves order. -/
theorem c8_packer_is_greedy_witness :
    chunkParas charTok 6 ["abc", "de", "fg"] [] 0 =
      (specGreedyPack charTok 6 ["abc", "de", "fg"] [] 0).map
        (String.intercalate "\n\n") ∧
    (specGreedyPack charTok 6 ["abc", "de", "fg"] [] 0).flatten =
      ["abc", "de", "fg"] :=
  c8_packer_is_greedy charTok 6 ["abc", "de", "fg"] (by decide)

/-- When the running total plus all remaining paragraph counts stays
within `target` (itself within `MAX_CHUNK_SIZE`), the paragraph loop never
closes a group: everything is joined into one chunk. -/
theorem chunkParas_single {τ : Type} (tk : Tokenizer τ) (target : Nat)
    (htm : target ≤ MAX_CHUNK_SIZE) :
    ∀ (ps cur : List String) (ct : Nat),
      ct + (ps.map (count_tokens tk)).sum ≤ target →
      cur ++ ps ≠ [] →
      chunkParas tk target ps cur ct =
        [String.intercalate "\n\n" (cur ++ ps)] := by
  intro ps
  induction ps with
  | nil =>
    intro cur ct _ hne
    rw [chunkParas_nil, if_neg (by simpa using hne), List.append_nil]
  | cons p rest ih =>
    intro cur ct hsum hne
    simp only [List.map_cons, List.sum_cons] at hsum
    have hp : ¬ (count_tokens tk p > MAX_CHUNK_SIZE) := by omega
    have hcond : ¬ (ct + count_tokens tk p > target ∧ cur ≠ []) := by
      rintro ⟨hgt, -⟩
      omega
    rw [chunkParas_cons, if_neg hp, if_neg hcond,
      ih (cur ++ [p]) (ct + count_tokens tk p) (by omega) (by simp),
      List.append_assoc]
    rfl

/-- C1 (amended): for a document whose content is already in paragraph
normal form (the trimmed nonempty paragraphs joined with the paragraph
separator give back the content) and whose whole content re-measures at
most `max_chunk_size`, chunking produces exactly one chunk whose content
is the document content unchanged, with index 0 and total 1, provided the
paragraph token counts sum to at most `target_chunk_size` or the content
is a single paragraph (the first paragraph never triggers a group close,
which requires a non-empty group, so a lone paragraph of up to
`max_chunk_size` tokens also survives intact). -/
theorem c1_amended_single_chunk {τ : Type} (tk : Tokenizer τ) (doc : Document)
    (hne : paragraph_candidates doc.content ≠ [])
    (hjoin : String.intercalate "\n\n" (paragraph_candidates doc.content) =
      doc.content)
    (hfits : ((paragraph_candidates doc.content).map (count_tokens tk)).sum ≤
      TARGET_CHUNK_SIZE ∨ (paragraph_candidates doc.content).length = 1)
    (hwhole : count_tokens tk doc.content ≤ MAX_CHUNK_SIZE) :
    chunk_document tk doc = some [{
      chunk_id := doc.id ++ "_chunk_" ++ toString 0
      content := doc.content
      token_count := count_tokens tk doc.content
      chunk_index := 0
      metadata :=
        { document_id := doc.id
          title := doc.title
          category := doc.category
          source := doc.source.getD ""
          url := doc.url.getD ""
          tags := doc.tags
          difficulty := doc.difficulty.getD ""
          chunk_index := 0
          total_chunks := 1 } }] := by
  have hcbp : chunk_by_paragraphs tk doc.content TARGET_CHUNK_SIZE =
      [doc.content] := by
    rcases hfits with hsum | hone
    · rw [chunk_by_paragraphs,
        chunkParas_single tk TARGET_CHUNK_SIZE (by norm_num [TARGET_CHUNK_SIZE, MAX_CHUNK_SIZE])
          (paragraph_candidates doc.content) [] 0 (by simpa using hsum)
          (by simpa using hne)]
      rw [List.nil_append, hjoin]
    · obtain ⟨p, hp⟩ : ∃ p, paragraph_candidates doc.content = [p] := by
        cases hpc : paragraph_candidates doc.content with
        | nil =>
          rw [hpc] at hone
          simp at hone
        | cons p rest =>
          rw [hpc] at hone
          simp only [List.length_cons] at hone
          have hrest : rest = [] := List.length_eq_zero.mp (by omega)
          exact ⟨p, by rw [hrest]⟩
      have hpcontent : p = doc.content := by
        rw [hp] at hjoin
        rw [← hjoin]
        rfl
      have hple : count_tokens tk p ≤ MAX_CHUNK_SIZE := by
        rw [hpcontent]
        exact hwhole
      rw [chunk_by_paragraphs, hp, chunkParas_cons, if_neg (by omega),
        if_neg (by simp), chunkParas_nil, if_neg (by simp), List.nil_append]
      rw [show String.intercalate "\n\n" [p] = p from rfl, hpcontent]
  have hbf : buildFinalChunks tk
      (chunk_by_paragraphs tk doc.content TARGET_CHUNK_SIZE) =
      some [doc.content] := by
    rw [hcbp, buildFinalChunks_cons, if_neg (by omega), buildFinalChunks_nil]
    rfl
  rw [chunk_document_eq_some tk doc [doc.content] hbf]
  rfl

/-- C1 amended witness: the two-paragraph witness document (5 + 2 + 5
tokens under `charTok`) comes back as exactly one unchanged chunk. -/
theorem c1_amended_single_chunk_witness :
    chunk_document charTok exDocW = some [exChunkW] :=
  c1_amended_single_chunk charTok exDocW (by decide) (by decide)
    (Or.inl (by decide)) (by decide)

/-- Per-character token counting for `heavyTok`. -/
theorem count_heavyTok (s : String) :
    count_tokens heavyTok s = (s.toList.map tokWeight).sum := by
  simp only [count_tokens, heavyTok, List.length_flatMap]
  congr 1
  apply List.map_congr_left
  intro c _
  simp [List.length_map, List.length_range]

theorem count_heavyTok_xx : count_tokens heavyTok "xx" = 400 := by
  rw [count_heavyTok]
  decide

/-- C1 counterexample: `exDoc1`'s whole content measures 802 tokens, at
most `max_chunk_size = 1000`, yet chunking it produces two chunks, not
one: the packer closes groups at `target_chunk_size = 750`, so the claim
as stated (threshold `max_chunk_size`) is false on the code. -/
theorem c1_counterexample :
    count_tokens heavyTok exDoc1.content ≤ MAX_CHUNK_SIZE ∧
    (chunk_document heavyTok exDoc1).map List.length = some 2 := by
  constructor
  · rw [count_heavyTok]
    decide
  · have hpc : paragraph_candidates exDoc1.content = ["xx", "xx"] := by decide
    have h1 : chunkParas heavyTok TARGET_CHUNK_SIZE ["xx", "xx"] [] 0 =
        chunkParas heavyTok TARGET_CHUNK_SIZE ["xx"] ["xx"] 400 := by
      rw [chunkParas_cons, count_heavyTok_xx,
        if_neg (by norm_num [MAX_CHUNK_SIZE]), if_neg (by simp)]
      rfl
    have h2 : chunkParas heavyTok TARGET_CHUNK_SIZE ["xx"] ["xx"] 400 =
        ["xx", "xx"] := by
      rw [chunkParas_cons, count_heavyTok_xx,
        if_neg (by norm_num [MAX_CHUNK_SIZE]),
        if_pos ⟨by norm_num [TARGET_CHUNK_SIZE], by simp⟩,
        chunkParas_nil, if_neg (by simp)]
      decide
    have hbf : buildFinalChunks heavyTok
        (chunk_by_paragraphs heavyTok exDoc1.content TARGET_CHUNK_SIZE) =
        some ["xx", "xx"] := by
      rw [chunk_by_paragraphs, hpc, h1, h2, buildFinalChunks_cons,
        count_heavyTok_xx, if_neg (by norm_num [MAX_CHUNK_SIZE]),
        buildFinalChunks_cons, count_heavyTok_xx,
        if_neg (by norm_num [MAX_CHUNK_SIZE]), buildFinalChunks_nil]
      rfl
    rw [chunk_document_eq_some heavyTok exDoc1 ["xx", "xx"] hbf]
    rfl

/-- C3: the claim (and spec) require an EmptyContentError for
whitespace-only content; the code has no such error and silently returns
an empty chunk list.  Evaluated at a whitespace-only document: the content
strips to empty, and `chunk_document` returns zero chunks instead of
failing. -/
theorem c3_whitespace_content_yields_no_chunks :
    pyStripStr exDoc3.content = "" ∧ chunk_document charTok exDoc3 = some [] := by
  decide

/-! ## Lemmas about the re-measuring pass of `chunk_document` -/

/-- Every decoded window emitted by `split_text_by_tokens` at the
configuration used by `chunk_document` comes from a contiguous slice of at
most `TARGET_CHUNK_SIZE` tokens of the sliced text's encoding. -/
theorem split_windows_decoded {τ : Type} (tk : Tokenizer τ) (t : String)
    (ss : List String)
    (h : split_text_by_tokens tk t TARGET_CHUNK_SIZE OVERLAP_SIZE = some ss) :
    ∀ x ∈ ss, ∃ w : List τ, (∃ pre post, tk.encode t = pre ++ w ++ post) ∧
      w.length ≤ TARGET_CHUNK_SIZE ∧ x = tk.decode w := by
  simp only [split_text_by_tokens] at h
  rw [Option.map_eq_some'] at h
  obtain ⟨ws, hws, hss⟩ := h
  subst hss
  intro x hx
  obtain ⟨w, hwmem, rfl⟩ := List.mem_map.mp hx
  obtain ⟨i, hi⟩ := List.mem_iff_get?.mp hwmem
  have hws0 : splitLoopAux (tk.encode t) TARGET_CHUNK_SIZE OVERLAP_SIZE
      ((tk.encode t).length + 1) ((0 : Nat) : Int) = some ws := hws
  have hwin := splitLoop_get? (tk.encode t) TARGET_CHUNK_SIZE OVERLAP_SIZE
    (by norm_num [TARGET_CHUNK_SIZE, OVERLAP_SIZE]) _ 0 ws hws0 i w hi
  refine ⟨w, ⟨(tk.encode t).take (0 + i * (TARGET_CHUNK_SIZE - OVERLAP_SIZE)),
    ((tk.encode t).drop (0 + i * (TARGET_CHUNK_SIZE - OVERLAP_SIZE))).drop
      TARGET_CHUNK_SIZE, ?_⟩, ?_, rfl⟩
  · rw [hwin, List.append_assoc, List.take_append_drop, List.take_append_drop]
  · rw [hwin]
    simp only [List.length_take]
    omega

/-- For a tokenizer that re-encodes any decoded contiguous slice of an
encoding back to that slice, every chunk text kept by the re-measuring
pass of `chunk_document` measures at most `MAX_CHUNK_SIZE` tokens. -/
theorem buildFinal_bound {τ : Type} (tk : Tokenizer τ)
    (htok : ∀ (t : String) (pre w post : List τ),
      tk.encode t = pre ++ w ++ post → tk.encode (tk.decode w) = w) :
    ∀ (L F : List String), buildFinalChunks tk L = some F →
      ∀ x ∈ F, count_tokens tk x ≤ MAX_CHUNK_SIZE := by
  intro L
  induction L with
  | nil =>
    intro F h x hx
    rw [buildFinalChunks_nil] at h
    injection h with h
    subst h
    simp at hx
  | cons t rest ih =>
    intro F h x hx
    rw [buildFinalChunks_cons] at h
    by_cases hc : count_tokens tk t > MAX_CHUNK_SIZE
    · rw [if_pos hc] at h
      cases hsp : split_text_by_tokens tk t TARGET_CHUNK_SIZE OVERLAP_SIZE with
      | none =>
        cases hbr : buildFinalChunks tk rest <;> rw [hsp, hbr] at h <;> simp at h
      | some subs =>
        cases hbr : buildFinalChunks tk rest with
        | none =>
          rw [hsp, hbr] at h
          simp at h
        | some R =>
          rw [hsp, hbr] at h
          injection h with h
          subst h
          rcases List.mem_append.mp hx with hxs | hxr
          · obtain ⟨w, ⟨pre, post, hdecomp⟩, hwlen, rfl⟩ :=
              split_windows_decoded tk t subs hsp x hxs
            have hre := htok t pre w post hdecomp
            unfold count_tokens
            rw [hre]
            calc w.length ≤ TARGET_CHUNK_SIZE := hwlen
            _ ≤ MAX_CHUNK_SIZE := by norm_num [TARGET_CHUNK_SIZE, MAX_CHUNK_SIZE]
          · exact ih R hbr x hxr
    · rw [if_neg hc] at h
      rw [Option.map_eq_some'] at h
      obtain ⟨R, hbr, hF⟩ := h
      subst hF
      rcases List.mem_cons.mp hx with rfl | hxr
      · omega
      · exact ih R hbr x hxr

/-- A text still measuring above `MAX_CHUNK_SIZE` is token-window sliced
into at least two windows. -/
theorem split_oversized_at_least_two {τ : Type} (tk : Tokenizer τ) (t : String)
    (hbig : MAX_CHUNK_SIZE < count_tokens tk t) :
    ∃ ss, split_text_by_tokens tk t TARGET_CHUNK_SIZE OVERLAP_SIZE = some ss ∧
      2 ≤ ss.length := by
  have hnum1 : OVERLAP_SIZE < TARGET_CHUNK_SIZE := by
    norm_num [TARGET_CHUNK_SIZE, OVERLAP_SIZE]
  have hlen : MAX_CHUNK_SIZE < (tk.encode t).length := hbig
  obtain ⟨ws, hws⟩ := splitLoop_total (tk.encode t) TARGET_CHUNK_SIZE OVERLAP_SIZE
    hnum1 (tk.encode t).length 0 (by omega)
  have hws2 := hws
  rw [splitLoopAux_nat_succ _ _ _ _ _ hnum1.le,
    if_pos (by simp only [MAX_CHUNK_SIZE] at hlen
               omega),
    if_neg (by simp only [MAX_CHUNK_SIZE] at hlen
               simp only [TARGET_CHUNK_SIZE]
               omega),
    Option.map_eq_some'] at hws2
  obtain ⟨rest, hrest, hwseq⟩ := hws2
  obtain ⟨hne, -⟩ := splitLoop_last (tk.encode t) TARGET_CHUNK_SIZE OVERLAP_SIZE
    hnum1.le _ (0 + (TARGET_CHUNK_SIZE - OVERLAP_SIZE)) rest hrest
    (by simp only [MAX_CHUNK_SIZE] at hlen
        simp only [TARGET_CHUNK_SIZE, OVERLAP_SIZE]
        omega)
  refine ⟨ws.map tk.decode, ?_, ?_⟩
  · have hws' : splitLoopAux (tk.encode t) TARGET_CHUNK_SIZE OVERLAP_SIZE
        ((tk.encode t).length + 1) 0 = some ws := hws
    simp only [split_text_by_tokens]
    rw [hws']
    rfl
  rw [← hwseq]
  simp only [List.length_map, List.length_cons]
  cases rest with
  | nil => exact absurd rfl hne
  | cons a l => simp

/-- C7 (amended): for a tokenizer that re-encodes decoded slices exactly,
every chunk emitted by `chunk_document` measures at most
`MAX_CHUNK_SIZE` tokens, and any paragraph-level fragment that still
re-measures above `MAX_CHUNK_SIZE` is token-window sliced into at least
two chunks.  (An oversized paragraph whose sentence normalisation already
shrinks it to within `MAX_CHUNK_SIZE` may however survive as a single
chunk — see the counterexample.) -/
theorem c7_amended_oversized_bounded {τ : Type} (tk : Tokenizer τ)
    (htok : ∀ (t : String) (pre w post : List τ),
      tk.encode t = pre ++ w ++ post → tk.encode (tk.decode w) = w)
    (doc : Document) (cs : List Chunk) (h : chunk_document tk doc = some cs) :
    (∀ c ∈ cs, c.token_count ≤ MAX_CHUNK_SIZE) ∧
    (∀ t ∈ chunk_by_paragraphs tk doc.content TARGET_CHUNK_SIZE,
      MAX_CHUNK_SIZE < count_tokens tk t →
      ∃ ss, split_text_by_tokens tk t TARGET_CHUNK_SIZE OVERLAP_SIZE = some ss ∧
        2 ≤ ss.length) := by
  constructor
  · intro c hc
    cases hb : buildFinalChunks tk
        (chunk_by_paragraphs tk doc.content TARGET_CHUNK_SIZE) with
    | none =>
      rw [chunk_document_eq_none tk doc hb] at h
      exact absurd h (by simp)
    | some F =>
      rw [chunk_document_eq_some tk doc F hb] at h
      injection h with h
      subst h
      obtain ⟨it, hit, rfl⟩ := List.mem_map.mp hc
      exact buildFinal_bound tk htok _ F hb it.2 (pyEnum_mem F 0 it hit)
  · intro t _ hbig
    exact split_oversized_at_least_two tk t hbig

/-- C7 amended witness: at the character tokenizer (whose decoded slices
re-encode exactly) and the witness document, every chunk is within the
hard bound. -/
theorem c7_amended_oversized_bounded_witness :
    (∀ c ∈ [exChunkW], c.token_count ≤ MAX_CHUNK_SIZE) ∧
    (∀ t ∈ chunk_by_paragraphs charTok exDocW.content TARGET_CHUNK_SIZE,
      MAX_CHUNK_SIZE < count_tokens charTok t →
      ∃ ss, split_text_by_tokens charTok t TARGET_CHUNK_SIZE OVERLAP_SIZE =
          some ss ∧ 2 ≤ ss.length) :=
  c7_amended_oversized_bounded charTok (fun _ _ _ _ _ => rfl) exDocW [exChunkW]
    (by decide)

theorem count_heavyTok_ydots : count_tokens heavyTok "yy..." = 1001 := by
  rw [count_heavyTok]
  decide

theorem count_heavyTok_ydot : count_tokens heavyTok "yy." = 999 := by
  rw [count_heavyTok]
  decide

/-- C7 counterexample: `exDoc7` is a single paragraph of 1001 tokens —
above `max_chunk_size` — yet `chunk_document` emits exactly one chunk for
it: the naive sentence normalisation (splitting on periods and dropping
empties) shrinks the paragraph to 999 tokens, so it is never decomposed
into two or more chunks as the claim requires. -/
theorem c7_counterexample :
    MAX_CHUNK_SIZE < count_tokens heavyTok exDoc7.content ∧
    paragraph_candidates exDoc7.content = [exDoc7.content] ∧
    (chunk_document heavyTok exDoc7).map List.length = some 1 := by
  refine ⟨?_, by decide, ?_⟩
  · rw [count_heavyTok]
    decide
  · have hpc : paragraph_candidates exDoc7.content = ["yy..."] := by decide
    have hsc : sentence_candidates "yy..." = ["yy."] := by decide
    have hps : packSentences heavyTok ["yy."] [] 0 = ["yy."] := by
      rw [packSentences_cons, count_heavyTok_ydot,
        if_neg (by norm_num [MAX_CHUNK_SIZE]), packSentences_nil,
        if_neg (by simp)]
      decide
    have hcp : chunkParas heavyTok TARGET_CHUNK_SIZE ["yy..."] [] 0 = ["yy."] := by
      rw [chunkParas_cons, count_heavyTok_ydots,
        if_pos (by norm_num [MAX_CHUNK_SIZE]), if_pos rfl, hsc, hps,
        chunkParas_nil, if_pos rfl]
      simp
    have hbf : buildFinalChunks heavyTok
        (chunk_by_paragraphs heavyTok exDoc7.content TARGET_CHUNK_SIZE) =
        some ["yy."] := by
      rw [chunk_by_paragraphs, hpc, hcp, buildFinalChunks_cons,
        count_heavyTok_ydot, if_neg (by norm_num [MAX_CHUNK_SIZE]),
        buildFinalChunks_nil]
      rfl
    rw [chunk_document_eq_some heavyTok exDoc7 ["yy."] hbf]
    rfl
